import Mathlib

/-!
# Verification of the LocalRAG chunking engine and database manager

Shallow embedding of the pure algorithmic core of the repository:

* `app/components/document_processor.py` — `_chunk_general_text`,
  `_chunk_legal_text`, `_chunk_letter_text`, `_generate_document_id`;
* `app/components/rag_pipeline.py` — result merging and the confidence
  heuristic of `query_single_database` / `query_multiple_databases`;
* `app/utils/database_manager.py` — `delete_database`, `query_databases`.

Python strings are embedded as `List Char`; Python's `int` as `Int`
(slice cursors in `_chunk_general_text` can go negative, and Python
slices then index from the end, which `pySlice` reproduces).  The
`while` loop of `_chunk_general_text` is embedded with explicit fuel
because it does not terminate for every configuration.
-/

namespace LocalRAG

/-- Characters removed by Python's `str.strip()` (ASCII whitespace). -/
def pyIsSpace (c : Char) : Bool :=
  c == ' ' || c == '\t' || c == '\n' || c == '\r' || c == '\x0b' || c == '\x0c'

/-- Python `str.strip()`: drop whitespace from both ends. -/
def stripChars (l : List Char) : List Char :=
  ((l.dropWhile pyIsSpace).reverse.dropWhile pyIsSpace).reverse

/-- Helper for `pyRfind`: index of the last occurrence of `c`, counting from `i`. -/
def pyRfindAux (c : Char) : List Char → Nat → Option Nat
  | [], _ => none
  | a :: rest, i =>
    match pyRfindAux c rest (i + 1) with
    | some j => some j
    | none => if a = c then some i else none

/-- Python `str.rfind(c)`: index of the last occurrence of `c`, or `-1`. -/
def pyRfind (l : List Char) (c : Char) : Int :=
  match pyRfindAux c l 0 with
  | some n => (n : Int)
  | none => -1

/-- Clamp one Python slice endpoint to an index of a string of length `n`. -/
def pyIdx (n : Nat) (i : Int) : Nat :=
  if i < 0 then (i + n).toNat else min i.toNat n

/-- Python slice `t[a:b]` with full negative-index semantics. -/
def pySlice (t : List Char) (a b : Int) : List Char :=
  (t.take (pyIdx t.length b)).drop (pyIdx t.length a)

/-- `best_break = max(chunk.rfind('.'), chunk.rfind('\n'))` for the window
`text[start : start + chunk_size]`; a window-relative offset (or `-1`). -/
def windowBreak (cs : Nat) (t : List Char) (start : Int) : Int :=
  max (pyRfind (pySlice t start (start + (cs : Int))) '.')
    (pyRfind (pySlice t start (start + (cs : Int))) '\n')

/-- One window of `_chunk_general_text`: the cut position `end` chosen for the
window starting at `start`.  Mirrors the source:
`end = start + chunk_size`, and
`if best_break > start + chunk_size // 2: end = start + best_break + 1`
(note: `best_break` is window-relative while `start + chunk_size // 2` is
absolute; the comparison is copied verbatim from the code). -/
def windowEnd (cs : Nat) (t : List Char) (start : Int) : Int :=
  if start + ((cs / 2 : Nat) : Int) < windowBreak cs t start then
    start + windowBreak cs t start + 1
  else start + (cs : Int)

/-- The cut position the specification describes: the break point is compared
against the window's own midpoint (`best_break > chunk_size // 2`,
window-relative).  Second definition written from the spec's words, for
comparison with `windowEnd` taken from the source. -/
def windowEndSpec (cs : Nat) (t : List Char) (start : Int) : Int :=
  if ((cs / 2 : Nat) : Int) < windowBreak cs t start then
    start + windowBreak cs t start + 1
  else start + (cs : Int)

/-- The cursor position after one iteration of the `while` loop of
`_chunk_general_text` (`start = end - chunk_overlap`). -/
def chunkNextStart (cs ov : Nat) (t : List Char) (start : Int) : Int :=
  windowEnd cs t start - (ov : Int)

/-- The `while` loop of `_chunk_general_text`, with explicit fuel.
Returns `none` when the fuel is exhausted (the loop does not terminate for
every configuration). -/
def chunkLoop (cs ov : Nat) (t : List Char) :
    Nat → Int → List (List Char) → Option (List (List Char))
  | 0, _, _ => none
  | fuel + 1, start, acc =>
    if start < (t.length : Int) then
      if (t.length : Int) ≤ start + (cs : Int) then
        some (acc ++ [pySlice t start (t.length : Int)])
      else
        chunkLoop cs ov t fuel (chunkNextStart cs ov t start)
          (acc ++ [pySlice t start (windowEnd cs t start)])
    else some acc

/-- Fuel budget used to run `chunkLoop`; any terminating execution of the
Python loop that keeps its cursor non-negative finishes well within it. -/
def chunkFuel (cs ov : Nat) (t : List Char) : Nat :=
  (t.length + 1) * (cs + ov + 2)

/-- The chunk list of `_chunk_general_text` as cut by the loop, before the
final `[chunk.strip() for chunk in chunks if chunk.strip()]` step.  The early
return for `len(text) <= chunk_size` yields `[text]` unchanged. -/
def chunkGeneralRaw (cs ov : Nat) (t : List Char) : Option (List (List Char)) :=
  if t.length ≤ cs then some [t]
  else chunkLoop cs ov t (chunkFuel cs ov t) 0 []

/-- `_chunk_general_text`: the raw loop output followed by the final
strip-and-drop-empty comprehension; the early return for short texts
bypasses that comprehension. -/
def chunkGeneralText (cs ov : Nat) (t : List Char) : Option (List (List Char)) :=
  if t.length ≤ cs then some [t]
  else
    (chunkLoop cs ov t (chunkFuel cs ov t) 0 []).map
      (fun cl => (cl.map stripChars).filter (fun c => !c.isEmpty))

/-- Concatenation of a chunk list with the overlap removed: the first chunk
whole, each later chunk with its first `ov` characters dropped. -/
def glueOverlap (ov : Nat) : List (List Char) → List Char
  | [] => []
  | c :: rest => c ++ (rest.map (List.drop ov)).flatten

/-- The accumulator loop of `_chunk_legal_text`.  The regex machinery is kept
abstract: `sections` is the list produced by
`re.split(f'({combined_pattern})', text)` and `isMarker sec` is the truth value
of `re.match(combined_pattern, sec)`.  The loop body is translated verbatim:
a marker section flushes the accumulator (stripped) and restarts it as
`section + " "`; other sections are appended, and an accumulator longer than
`2 * chunk_size` is split by `_chunk_general_text`, emitting all sub-chunks
but the last, which becomes the new accumulator. -/
def legalFold (cs ov : Nat) (isMarker : List Char → Bool) :
    List (List Char) → List (List Char) → List Char →
    Option (List (List Char) × List Char)
  | [], chunks, current => some (chunks, current)
  | sec :: rest, chunks, current =>
    if isMarker sec then
      legalFold cs ov isMarker rest
        (if current.isEmpty then chunks else chunks ++ [stripChars current])
        (sec ++ [' '])
    else
      if cs * 2 < (current ++ sec).length then
        match chunkGeneralText cs ov (current ++ sec) with
        | none => none
        | some sub =>
          legalFold cs ov isMarker rest (chunks ++ sub.dropLast)
            ((sub.getLast?).getD [])
      else legalFold cs ov isMarker rest chunks (current ++ sec)

/-- `_chunk_legal_text`: run the accumulator loop over the regex-split
sections, flush the final accumulator, and keep only chunks whose stripped
form is non-empty. -/
def chunkLegalText (cs ov : Nat) (isMarker : List Char → Bool)
    (sections : List (List Char)) : Option (List (List Char)) :=
  match legalFold cs ov isMarker sections [] [] with
  | none => none
  | some (chunks, current) =>
    some (((if current.isEmpty then chunks
      else chunks ++ [stripChars current]).filter
        (fun c => !(stripChars c).isEmpty)))

/-- Inner loop of `_chunk_letter_text` over the paragraphs of one page: strip
each paragraph, skip empty ones, send over-long ones through
`_chunk_general_text` and keep the rest whole. -/
def letterParFold (cs ov : Nat) :
    List (List Char) → List (List Char) → Option (List (List Char))
  | [], chunks => some chunks
  | p0 :: rest, chunks =>
    if (stripChars p0).isEmpty then letterParFold cs ov rest chunks
    else if cs < (stripChars p0).length then
      match chunkGeneralText cs ov (stripChars p0) with
      | none => none
      | some sub => letterParFold cs ov rest (chunks ++ sub)
    else letterParFold cs ov rest (chunks ++ [stripChars p0])

/-- `_chunk_letter_text`: outer loop over pages.  The two splits are kept
abstract: `pages` is `text.split('--- Page ')` and `parsOf page` is
`re.split(r'\n\s*\d+\.\s+', page)`. -/
def chunkLetterText (cs ov : Nat) (parsOf : List Char → List (List Char)) :
    List (List Char) → List (List Char) → Option (List (List Char))
  | [], chunks => some chunks
  | pg :: rest, chunks =>
    if (stripChars pg).isEmpty then chunkLetterText cs ov parsOf rest chunks
    else
      match letterParFold cs ov (parsOf pg) chunks with
      | none => none
      | some chunks' => chunkLetterText cs ov parsOf rest chunks'

/-- `_generate_document_id`: `hashlib.md5(f"{file_path.name}_{suffix}")`.
The hash itself is an external library function, passed in as an arbitrary
(deterministic) `md5hex`. -/
def generateDocumentId (md5hex : String → String) (fileName suffix : String) :
    String :=
  md5hex (fileName ++ "_" ++ suffix)

/-- One entry of the document list built by `_process_txt` / `_process_pdf` /
`_process_docx`: id, chunk content, and the metadata fields attached to it. -/
structure DocRecord where
  id : String
  content : List Char
  sourceFile : String
  chunkIndex : Nat
  totalChunks : Nat
  processedAt : String
deriving DecidableEq

/-- The document-building loop shared by the text-family processors:
`doc_id = _generate_document_id(file_path, i)` for the i-th chunk, plus the
metadata dictionary (whose `processed_at` field is the wall-clock time). -/
def buildDocuments (md5hex : String → String) (fileName : String)
    (chunks : List (List Char)) (now : String) : List DocRecord :=
  chunks.enum.map (fun p =>
    { id := generateDocumentId md5hex fileName (toString p.1)
      content := p.2
      sourceFile := fileName
      chunkIndex := p.1
      totalChunks := chunks.length
      processedAt := now })

/-- One formatted hit of `DatabaseManager.query_databases`: content, distance
(`None` when the vector store returns no distances) and source database. -/
structure QHit where
  content : List Char
  distance : Option Rat
  sourceDatabase : String
deriving DecidableEq

/-- Sort key of the re-ranking step: `doc.get('distance', 1.0)`.  (The key is
always present in a formatted hit; a `None` distance would make the Python
comparison raise, so ordering claims assume numeric distances.) -/
def hitKey (h : QHit) : Rat := h.distance.getD 1

/-- The comparison under which `all_documents.sort(key=...)` orders hits. -/
def hitLe (a b : QHit) : Prop := hitKey a ≤ hitKey b

instance : DecidableRel hitLe := fun a b =>
  inferInstanceAs (Decidable (hitKey a ≤ hitKey b))

instance : IsTotal QHit hitLe := ⟨fun a b => le_total (hitKey a) (hitKey b)⟩

instance : IsTrans QHit hitLe := ⟨fun _ _ _ => le_trans⟩

/-- `all_documents.sort(key=lambda doc: doc.get('distance', 1.0))`: Python's
`list.sort` is a stable ascending sort by key, i.e. insertion sort. -/
def sortByDistance (l : List QHit) : List QHit := List.insertionSort hitLe l

/-- The merge of `query_multiple_databases`: flatten the per-database hit
lists (in request order), stable-sort by distance, truncate to
`max_chunks_per_query`. -/
def mergeHits (maxChunks : Nat) (perDb : List (List QHit)) : List QHit :=
  (sortByDistance perDb.flatten).take maxChunks

/-- `query_single_database` confidence: `min(len(documents) * 0.2, 1.0)`
(also the value `0.0` returned when there are no hits, since the formula
gives `0` there). -/
def singleConfidence (hitCount : Nat) : Rat :=
  min ((hitCount : Rat) * (1 / 5)) 1

/-- `query_multiple_databases` confidence.  `allCount` is the number of
combined hits before truncation (the early `'No relevant documents'` return
fires when it is zero), and the formula
`min(len(top_documents) * 0.15 + len(database_names) * 0.1, 1.0)` uses the
truncated count `min allCount maxChunks`. -/
def multiConfidence (allCount dbCount maxChunks : Nat) : Rat :=
  if allCount = 0 then 0
  else min (((min allCount maxChunks : Nat) : Rat) * (3 / 20)
    + (dbCount : Rat) * (1 / 10)) 1

/-- Outcome of handling one database inside `query_databases`:
`load_database` returned `None`; or the collection query raised; or it
returned raw `(content, distance)` pairs. -/
inductive DbOutcome where
  | openFail : DbOutcome
  | queryFail : DbOutcome
  | ok : List (List Char × Option Rat) → DbOutcome
deriving DecidableEq

/-- The result-formatting loop of `query_databases`: tag each raw hit with
its source database name. -/
def formatHits (name : String) (hits : List (List Char × Option Rat)) :
    List QHit :=
  hits.map (fun h => { content := h.1, distance := h.2, sourceDatabase := name })

/-- Python dict assignment `m[k] = v` on an insertion-ordered dict. -/
def dictSet {α : Type} (m : List (String × α)) (k : String) (v : α) :
    List (String × α) :=
  if m.any (fun p => p.1 == k) then
    m.map (fun p => if p.1 == k then (k, v) else p)
  else m ++ [(k, v)]

/-- One iteration of the `for db_name in database_names` loop of
`query_databases`: a database that fails to open is skipped by `continue`
(no entry is written); an exception during the query writes an empty entry;
success writes the formatted hits. -/
def queryStep (env : String → DbOutcome) (results : List (String × List QHit))
    (name : String) : List (String × List QHit) :=
  match env name with
  | DbOutcome.openFail => results
  | DbOutcome.queryFail => dictSet results name []
  | DbOutcome.ok hits => dictSet results name (formatHits name hits)

/-- `DatabaseManager.query_databases`: fold the per-database step over the
requested names, starting from the empty result dict. -/
def queryDatabases (env : String → DbOutcome) (names : List String) :
    List (String × List QHit) :=
  names.foldl (queryStep env) []

/-- Environment in which every database fails to open. -/
def envOpenFail : String → DbOutcome := fun _ => DbOutcome.openFail

/-- Environment in which `dbB`'s query raises and everything else fails to
open. -/
def envMixed : String → DbOutcome := fun n =>
  if n = "dbB" then DbOutcome.queryFail else DbOutcome.openFail

/-- Concrete per-database hit lists used as witnesses for the merge step. -/
def hitsDb1 : List QHit :=
  [⟨"x".toList, some 3, "db1"⟩, ⟨"y".toList, some 1, "db1"⟩]

/-- Second concrete hit list (its hit ties with one of `hitsDb1`). -/
def hitsDb2 : List QHit := [⟨"z".toList, some 1, "db2"⟩]

/-- Observable steps of `delete_database`, in execution order. -/
inductive Event where
  | removeActive : String → Event
  | removeDir : String → Event
  | auditAppend : String → String → Event
deriving DecidableEq

/-- Result of `delete_database`: return value, the two updated containers,
and the ordered trace of observable steps. -/
structure DeleteResult where
  ok : Bool
  active : List String
  disk : List String
  events : List Event
deriving DecidableEq

/-- `DatabaseManager.delete_database`: evict from `active_databases` if
present, `shutil.rmtree` the on-disk directory if present, then append the
`DELETE_DATABASE` audit record; returns `True` unconditionally (the `except`
branch is reachable only through I/O failures, which are not modelled). -/
def deleteDatabase (active disk : List String) (name : String) : DeleteResult :=
  { ok := true
    active := active.erase name
    disk := disk.erase name
    events :=
      (if name ∈ active then [Event.removeActive name] else []) ++
        (if name ∈ disk then [Event.removeDir name] else []) ++
        [Event.auditAppend "DELETE_DATABASE" name] }

/-! ## Theorems -/

/-! ### Supporting lemmas on the Python string primitives -/

theorem pyRfindAux_bounds (c : Char) :
    ∀ (l : List Char) (i j : Nat), pyRfindAux c l i = some j →
      i ≤ j ∧ j < i + l.length := by
  intro l
  induction l with
  | nil => intro i j h; simp [pyRfindAux] at h
  | cons a rest ih =>
    intro i j h
    unfold pyRfindAux at h
    cases hrec : pyRfindAux c rest (i + 1) with
    | some k =>
      rw [hrec] at h
      have hk := ih (i + 1) k hrec
      have : k = j := by injection h
      subst this
      simp only [List.length_cons]
      omega
    | none =>
      rw [hrec] at h
      by_cases hac : a = c
      · rw [if_pos hac] at h
        have : i = j := by injection h
        subst this
        simp only [List.length_cons]
        omega
      · rw [if_neg hac] at h
        exact absurd h (by simp)

theorem pyRfind_bounds (l : List Char) (c : Char) :
    -1 ≤ pyRfind l c ∧ pyRfind l c < (l.length : Int) := by
  unfold pyRfind
  cases h : pyRfindAux c l 0 with
  | none =>
    show (-1 : Int) ≤ -1 ∧ (-1 : Int) < (l.length : Int)
    constructor <;> omega
  | some j =>
    have hb := pyRfindAux_bounds c l 0 j h
    show -1 ≤ (j : Int) ∧ (j : Int) < (l.length : Int)
    constructor <;> omega

theorem pyIdx_natCast (n a : Nat) : pyIdx n (a : Int) = min a n := by
  unfold pyIdx
  rw [if_neg (by omega)]
  simp

theorem take_min_length (t : List Char) (b : Nat) :
    t.take (min b t.length) = t.take b := by
  by_cases h : b ≤ t.length
  · rw [min_eq_left h]
  · rw [min_eq_right (by omega), List.take_length, List.take_of_length_le (by omega)]

theorem drop_min_of_le (X : List Char) (a n : Nat) (h : X.length ≤ n) :
    X.drop (min a n) = X.drop a := by
  by_cases hab : a ≤ n
  · rw [min_eq_left hab]
  · rw [min_eq_right (by omega), List.drop_eq_nil_of_le h,
      List.drop_eq_nil_of_le (by omega)]

theorem pySlice_natCast (t : List Char) (a b : Nat) :
    pySlice t (a : Int) (b : Int) = (t.take b).drop a := by
  unfold pySlice
  rw [pyIdx_natCast, pyIdx_natCast, take_min_length,
    drop_min_of_le (t.take b) a t.length (by rw [List.length_take]; omega)]

theorem glueOverlap_singleton (ov : Nat) (c : List Char) :
    glueOverlap ov [c] = c := by
  simp [glueOverlap]

theorem glueOverlap_append_singleton (ov : Nat) (acc : List (List Char))
    (c : List Char) (h : acc ≠ []) :
    glueOverlap ov (acc ++ [c]) = glueOverlap ov acc ++ c.drop ov := by
  cases acc with
  | nil => exact absurd rfl h
  | cons a rest =>
    simp [glueOverlap, List.append_assoc]

/-! ### The window arithmetic of `_chunk_general_text` -/

theorem windowBreak_lt (cs : Nat) (t : List Char) (s : Nat) :
    windowBreak cs t (s : Int) < (cs : Int) ∨ windowBreak cs t (s : Int) = -1 := by
  unfold windowBreak
  have hcast : (s : Int) + (cs : Int) = ((s + cs : Nat) : Int) := by push_cast; ring
  rw [hcast, pySlice_natCast]
  have hlen : (((t.take (s + cs)).drop s).length : Int) ≤ (cs : Int) := by
    simp only [List.length_drop, List.length_take]
    omega
  have h1 := pyRfind_bounds ((t.take (s + cs)).drop s) '.'
  have h2 := pyRfind_bounds ((t.take (s + cs)).drop s) '\n'
  left
  omega

theorem windowEnd_bounds (cs ov : Nat) (t : List Char) (s : Nat)
    (hov : ov < cs) (h2 : 2 * ov ≤ cs) :
    ∃ e : Nat, windowEnd cs t (s : Int) = (e : Int) ∧ s + ov < e ∧ e ≤ s + cs := by
  have hhalf : ov ≤ cs / 2 := by omega
  have hbk := windowBreak_lt cs t s
  unfold windowEnd
  by_cases hc : (s : Int) + ((cs / 2 : Nat) : Int) < windowBreak cs t (s : Int)
  · have hnn : 0 ≤ windowBreak cs t (s : Int) := by omega
    refine ⟨s + (windowBreak cs t (s : Int)).toNat + 1, ?_, ?_, ?_⟩
    · rw [if_pos hc]
      push_cast [Int.toNat_of_nonneg hnn]
      ring
    · have : (ov : Int) ≤ ((cs / 2 : Nat) : Int) := by exact_mod_cast hhalf
      omega
    · omega
  · refine ⟨s + cs, ?_, by omega, le_refl _⟩
    rw [if_neg hc]
    push_cast
    ring

/-! ### `str.strip()` lemmas -/

theorem dropWhile_head_false (p : Char → Bool) (l : List Char) :
    ∀ a ∈ (l.dropWhile p).head?, p a = false := by
  induction l with
  | nil => intro a ha; simp [List.dropWhile] at ha
  | cons x xs ih =>
    intro a ha
    rw [List.dropWhile_cons] at ha
    by_cases hx : p x = true
    · rw [if_pos hx] at ha
      exact ih a ha
    · rw [if_neg hx] at ha
      simp only [List.head?_cons, Option.mem_def, Option.some.injEq] at ha
      subst ha
      simpa using hx

theorem dropWhile_eq_self_of_head (p : Char → Bool) (l : List Char)
    (h : ∀ a ∈ l.head?, p a = false) : l.dropWhile p = l := by
  cases l with
  | nil => rfl
  | cons x xs =>
    rw [List.dropWhile_cons, if_neg]
    have := h x (by simp)
    simp [this]

theorem stripChars_eq_self (l : List Char)
    (hh : ∀ a ∈ l.head?, pyIsSpace a = false)
    (hg : ∀ a ∈ l.getLast?, pyIsSpace a = false) : stripChars l = l := by
  unfold stripChars
  rw [dropWhile_eq_self_of_head _ _ hh, dropWhile_eq_self_of_head, List.reverse_reverse]
  intro a ha
  rw [List.head?_reverse] at ha
  exact hg a ha

theorem stripChars_head_false (l : List Char) :
    ∀ a ∈ (stripChars l).head?, pyIsSpace a = false := by
  intro a ha
  unfold stripChars at ha
  rw [List.head?_reverse] at ha
  cases hB : ((l.dropWhile pyIsSpace).reverse).dropWhile pyIsSpace with
  | nil => rw [hB] at ha; simp at ha
  | cons b bs =>
    rw [hB] at ha
    have h1 : ((l.dropWhile pyIsSpace).reverse).takeWhile pyIsSpace ++ (b :: bs)
        = (l.dropWhile pyIsSpace).reverse := by
      rw [← hB, List.takeWhile_append_dropWhile]
    have h2 : ((l.dropWhile pyIsSpace).reverse).getLast? = (b :: bs).getLast? := by
      rw [← h1, List.getLast?_append_of_ne_nil _ (by simp)]
    apply dropWhile_head_false pyIsSpace l
    rw [← List.getLast?_reverse, h2]
    exact ha

theorem stripChars_getLast_false (l : List Char) :
    ∀ a ∈ (stripChars l).getLast?, pyIsSpace a = false := by
  intro a ha
  unfold stripChars at ha
  rw [List.getLast?_reverse] at ha
  exact dropWhile_head_false pyIsSpace _ a ha

theorem stripChars_idem (l : List Char) :
    stripChars (stripChars l) = stripChars l :=
  stripChars_eq_self _ (stripChars_head_false l) (stripChars_getLast_false l)

theorem stripChars_nil : stripChars ([] : List Char) = [] := rfl

/-! ### Chunk outputs are trimmed and non-empty (except the early return) -/

theorem chunkGeneralText_out_trimmed (cs ov : Nat) (t : List Char)
    (hlong : cs < t.length) (out : List (List Char))
    (hout : chunkGeneralText cs ov t = some out) :
    ∀ c ∈ out, c ≠ [] ∧ stripChars c = c := by
  unfold chunkGeneralText at hout
  rw [if_neg (by omega)] at hout
  obtain ⟨cl, _, hmap⟩ := Option.map_eq_some'.mp hout
  intro c hc
  rw [← hmap] at hc
  rw [List.mem_filter] at hc
  obtain ⟨hcmem, hcne⟩ := hc
  obtain ⟨c0, _, rfl⟩ := List.mem_map.mp hcmem
  refine ⟨?_, stripChars_idem c0⟩
  simpa using hcne

theorem legalFold_inv (cs ov : Nat) (isMarker : List Char → Bool) :
    ∀ (sections chunks : List (List Char)) (current : List Char)
      (res : List (List Char) × List Char),
      legalFold cs ov isMarker sections chunks current = some res →
      (∀ c ∈ chunks, stripChars c = c) →
      ∀ c ∈ res.1, stripChars c = c := by
  intro sections
  induction sections with
  | nil =>
    intro chunks current res h hc
    have : (chunks, current) = res := Option.some.inj h
    rw [← this]
    exact hc
  | cons sec rest ih =>
    intro chunks current res h hc
    simp only [legalFold] at h
    by_cases hm : isMarker sec = true
    · rw [if_pos hm] at h
      refine ih _ _ res h ?_
      split_ifs with hcur
      · exact hc
      · intro c hcm
        rcases List.mem_append.mp hcm with h1 | h1
        · exact hc c h1
        · rw [List.mem_singleton.mp h1]
          exact stripChars_idem current
    · rw [if_neg hm] at h
      by_cases hlen : cs * 2 < (current ++ sec).length
      · rw [if_pos hlen] at h
        cases hsub : chunkGeneralText cs ov (current ++ sec) with
        | none => rw [hsub] at h; exact absurd h (by simp)
        | some sub =>
          rw [hsub] at h
          refine ih _ _ res h ?_
          intro c hcm
          rcases List.mem_append.mp hcm with h1 | h1
          · exact hc c h1
          · have hcs : cs < (current ++ sec).length := by omega
            exact (chunkGeneralText_out_trimmed cs ov (current ++ sec) hcs sub hsub
              c (List.Sublist.mem h1 (List.dropLast_sublist sub))).2
      · rw [if_neg hlen] at h
        exact ih _ _ res h hc

theorem chunkLegalText_out_trimmed (cs ov : Nat) (isMarker : List Char → Bool)
    (sections : List (List Char)) (out : List (List Char))
    (hout : chunkLegalText cs ov isMarker sections = some out) :
    ∀ c ∈ out, c ≠ [] ∧ stripChars c = c := by
  unfold chunkLegalText at hout
  cases hfold : legalFold cs ov isMarker sections [] [] with
  | none => rw [hfold] at hout; exact absurd hout (by simp)
  | some res =>
    obtain ⟨chunks, current⟩ := res
    rw [hfold] at hout
    have hinv := legalFold_inv cs ov isMarker sections [] [] (chunks, current)
      hfold (by intro c hc; exact absurd hc (List.not_mem_nil c))
    have hout' := Option.some.inj hout
    intro c hcm
    rw [← hout'] at hcm
    rw [List.mem_filter] at hcm
    obtain ⟨h1, h2⟩ := hcm
    have hfix : stripChars c = c := by
      revert h1
      split_ifs with hcur
      · exact hinv c
      · intro h1
        rcases List.mem_append.mp h1 with h3 | h3
        · exact hinv c h3
        · rw [List.mem_singleton.mp h3]
          exact stripChars_idem current
    refine ⟨?_, hfix⟩
    intro hceq
    rw [hceq, stripChars_nil] at hfix
    rw [hceq] at h2
    rw [stripChars_nil] at h2
    simp at h2

theorem letterParFold_inv (cs ov : Nat) :
    ∀ (pars chunks out : List (List Char)),
      letterParFold cs ov pars chunks = some out →
      (∀ c ∈ chunks, c ≠ [] ∧ stripChars c = c) →
      ∀ c ∈ out, c ≠ [] ∧ stripChars c = c := by
  intro pars
  induction pars with
  | nil =>
    intro chunks out h hc
    rw [← Option.some.inj h]
    exact hc
  | cons p0 rest ih =>
    intro chunks out h hc
    simp only [letterParFold] at h
    by_cases hp : (stripChars p0).isEmpty = true
    · rw [if_pos hp] at h
      exact ih chunks out h hc
    · rw [if_neg hp] at h
      by_cases hlong : cs < (stripChars p0).length
      · rw [if_pos hlong] at h
        cases hsub : chunkGeneralText cs ov (stripChars p0) with
        | none => rw [hsub] at h; exact absurd h (by simp)
        | some sub =>
          rw [hsub] at h
          refine ih _ out h ?_
          intro c hcm
          rcases List.mem_append.mp hcm with h1 | h1
          · exact hc c h1
          · exact chunkGeneralText_out_trimmed cs ov (stripChars p0) hlong sub hsub c h1
      · rw [if_neg hlong] at h
        refine ih _ out h ?_
        intro c hcm
        rcases List.mem_append.mp hcm with h1 | h1
        · exact hc c h1
        · rw [List.mem_singleton.mp h1]
          refine ⟨by simpa using hp, stripChars_idem p0⟩

theorem chunkLetterText_inv (cs ov : Nat) (parsOf : List Char → List (List Char)) :
    ∀ (pages chunks out : List (List Char)),
      chunkLetterText cs ov parsOf pages chunks = some out →
      (∀ c ∈ chunks, c ≠ [] ∧ stripChars c = c) →
      ∀ c ∈ out, c ≠ [] ∧ stripChars c = c := by
  intro pages
  induction pages with
  | nil =>
    intro chunks out h hc
    rw [← Option.some.inj h]
    exact hc
  | cons pg rest ih =>
    intro chunks out h hc
    simp only [chunkLetterText] at h
    by_cases hpg : (stripChars pg).isEmpty = true
    · rw [if_pos hpg] at h
      exact ih chunks out h hc
    · rw [if_neg hpg] at h
      cases hpar : letterParFold cs ov (parsOf pg) chunks with
      | none => rw [hpar] at h; exact absurd h (by simp)
      | some chunks' =>
        rw [hpar] at h
        exact ih chunks' out h (letterParFold_inv cs ov (parsOf pg) chunks chunks' hpar hc)

/-- C8 (amended): in every chunking mode the emitted fragments are non-empty
and equal to their own trimmed form — except for the early return of
`_chunk_general_text`, which hands back a text of length ≤ `chunk_size`
verbatim (see `chunkGeneralText_emits_whitespace`); the statute and letter
modes only invoke general chunking on over-long accumulators, so their
outputs are always trimmed and non-empty. -/
theorem chunker_outputs_trimmed :
    (∀ (cs ov : Nat) (t : List Char) (out : List (List Char)), cs < t.length →
        chunkGeneralText cs ov t = some out →
        ∀ c ∈ out, c ≠ [] ∧ stripChars c = c)
      ∧ (∀ (cs ov : Nat) (isMarker : List Char → Bool)
          (sections out : List (List Char)),
          chunkLegalText cs ov isMarker sections = some out →
          ∀ c ∈ out, c ≠ [] ∧ stripChars c = c)
      ∧ (∀ (cs ov : Nat) (parsOf : List Char → List (List Char))
          (pages out : List (List Char)),
          chunkLetterText cs ov parsOf pages [] = some out →
          ∀ c ∈ out, c ≠ [] ∧ stripChars c = c) := by
  refine ⟨fun cs ov t out h1 h2 => chunkGeneralText_out_trimmed cs ov t h1 out h2,
    fun cs ov isMarker sections out h => chunkLegalText_out_trimmed cs ov isMarker sections out h,
    fun cs ov parsOf pages out h => ?_⟩
  exact chunkLetterText_inv cs ov parsOf pages [] out h
    (by intro c hc; exact absurd hc (List.not_mem_nil c))

/-- Witness for `chunker_outputs_trimmed` at `chunk_size = 1`,
`chunk_overlap = 0`, text `"ab"`. -/
theorem chunker_outputs_trimmed_witness :
    chunkGeneralText 1 0 ("ab".toList) = some ["a".toList, "b".toList]
      ∧ "a".toList ≠ ([] : List Char)
      ∧ stripChars ("a".toList) = "a".toList := by
  have hval : chunkGeneralText 1 0 ("ab".toList) = some ["a".toList, "b".toList] := by
    unfold chunkGeneralText
    rw [if_neg (by decide)]
    decide
  have h := chunker_outputs_trimmed.1 1 0 ("ab".toList) ["a".toList, "b".toList]
    (by decide) hval ("a".toList) (by simp)
  exact ⟨hval, h.1, h.2⟩

/-- Invariant proof for the `while` loop of `_chunk_general_text`: starting
from a non-negative cursor `s` whose already-emitted chunks glue back (with
the overlap removed) to `text[:s + overlap]`, the loop terminates within the
fuel, the final chunk list glues back to the whole text, and every chunk
(final included) has length at most `chunk_size` — all under
`2 * chunk_overlap ≤ chunk_size` (for larger overlaps the loop can fail to
advance, see `chunkLoop_stuck`). -/
theorem chunkLoop_sound (cs ov : Nat) (t : List Char) (hov : ov < cs)
    (hsafe : 2 * ov ≤ cs) :
    ∀ (fuel s : Nat) (acc : List (List Char)),
      s < t.length → t.length ≤ s + fuel →
      ((acc = [] ∧ s = 0) ∨ (acc ≠ [] ∧ glueOverlap ov acc = t.take (s + ov))) →
      (∀ c ∈ acc, c.length ≤ cs) →
      ∃ raw, chunkLoop cs ov t fuel (s : Int) acc = some raw
        ∧ glueOverlap ov raw = t ∧ ∀ c ∈ raw, c.length ≤ cs := by
  intro fuel
  induction fuel with
  | zero => intro s acc hs hf _ _; omega
  | succ fuel ih =>
    intro s acc hs hf hinv hlen
    simp only [chunkLoop]
    rw [if_pos (show (s : Int) < (t.length : Int) by exact_mod_cast hs)]
    by_cases hfin : t.length ≤ s + cs
    · rw [if_pos (show (t.length : Int) ≤ (s : Int) + (cs : Int) by omega)]
      have hslice : pySlice t (s : Int) (t.length : Int) = t.drop s := by
        rw [pySlice_natCast, List.take_length]
      refine ⟨acc ++ [pySlice t (s : Int) (t.length : Int)], rfl, ?_, ?_⟩
      · rcases hinv with ⟨hacc, hs0⟩ | ⟨hne, hglue⟩
        · subst hacc; subst hs0
          simp only [List.nil_append]
          rw [glueOverlap_singleton, hslice, List.drop_zero]
        · rw [glueOverlap_append_singleton ov acc _ hne, hglue, hslice,
            List.drop_drop, List.take_append_drop]
      · intro c hc
        rcases List.mem_append.mp hc with h | h
        · exact hlen c h
        · rw [List.mem_singleton.mp h, hslice]
          simp only [List.length_drop]
          omega
    · rw [if_neg (show ¬ (t.length : Int) ≤ (s : Int) + (cs : Int) by omega)]
      obtain ⟨e, he, helow, hehigh⟩ := windowEnd_bounds cs ov t s hov hsafe
      have hnext : chunkNextStart cs ov t (s : Int) = ((e - ov : Nat) : Int) := by
        unfold chunkNextStart
        rw [he]
        omega
      have hslice : pySlice t (s : Int) (windowEnd cs t (s : Int))
          = (t.take e).drop s := by
        rw [he, pySlice_natCast]
      have hchunklen : ((t.take e).drop s).length ≤ cs := by
        simp only [List.length_drop, List.length_take]
        omega
      rw [hnext, hslice]
      apply ih (e - ov) (acc ++ [(t.take e).drop s]) (by omega) (by omega) ?_ ?_
      · right
        refine ⟨by simp, ?_⟩
        have hknat : e - ov + ov = e := by omega
        rcases hinv with ⟨hacc, hs0⟩ | ⟨hne, hglue⟩
        · subst hacc; subst hs0
          simp only [List.nil_append]
          rw [glueOverlap_singleton, hknat, List.drop_zero]
        · rw [glueOverlap_append_singleton ov acc _ hne, hglue, hknat,
            List.drop_drop]
          have h1 : t.take (s + ov) = (t.take e).take (s + ov) := by
            rw [List.take_take, min_eq_left (by omega)]
          rw [h1, List.take_append_drop]
      · intro c hc
        rcases List.mem_append.mp hc with h | h
        · exact hlen c h
        · rw [List.mem_singleton.mp h]
          exact hchunklen

/-- C1 (amended): for `2 * chunk_overlap ≤ chunk_size`, the chunk list as
cut by `_chunk_general_text` **before** its final strip-and-filter step
reconstructs the original text when concatenated with the first
`chunk_overlap` characters of each chunk after the first removed, and every
chunk (the final one included) has length at most `chunk_size`. -/
theorem chunkGeneralRaw_reconstruction (cs ov : Nat) (t : List Char)
    (hov : ov < cs) (hsafe : 2 * ov ≤ cs) :
    ∃ raw, chunkGeneralRaw cs ov t = some raw
      ∧ glueOverlap ov raw = t ∧ ∀ c ∈ raw, c.length ≤ cs := by
  unfold chunkGeneralRaw
  by_cases hshort : t.length ≤ cs
  · rw [if_pos hshort]
    refine ⟨[t], rfl, glueOverlap_singleton ov t, ?_⟩
    intro c hc
    rw [List.mem_singleton.mp hc]
    exact hshort
  · rw [if_neg hshort]
    have hfuel : t.length ≤ 0 + chunkFuel cs ov t := by
      have h : t.length + 1 ≤ (t.length + 1) * (cs + ov + 2) :=
        Nat.le_mul_of_pos_right _ (by omega)
      unfold chunkFuel
      omega
    have := chunkLoop_sound cs ov t hov hsafe (chunkFuel cs ov t) 0 []
      (by omega) hfuel (Or.inl ⟨rfl, rfl⟩)
      (by intro c hc; exact absurd hc (List.not_mem_nil c))
    simpa using this

/-- Witness for `chunkGeneralRaw_reconstruction` at `chunk_size = 4`,
`chunk_overlap = 1`, text `"abc de fg"`. -/
theorem chunkGeneralRaw_reconstruction_witness :
    chunkGeneralRaw 4 1 ("abc de fg".toList)
        = some ["abc ".toList, " de ".toList, " fg".toList]
      ∧ glueOverlap 1 ["abc ".toList, " de ".toList, " fg".toList]
          = "abc de fg".toList := by
  obtain ⟨raw, h1, h2, _⟩ :=
    chunkGeneralRaw_reconstruction 4 1 ("abc de fg".toList) (by decide) (by decide)
  have hval : chunkGeneralRaw 4 1 ("abc de fg".toList)
      = some ["abc ".toList, " de ".toList, " fg".toList] := by
    unfold chunkGeneralRaw
    rw [if_neg (by decide)]
    decide
  refine ⟨hval, ?_⟩
  have hraw : raw = ["abc ".toList, " de ".toList, " fg".toList] :=
    Option.some.inj (h1 ▸ hval)
  rw [← hraw]
  exact h2

/-- Helper for the non-termination of `_chunk_general_text` at
`chunk_size = 5`, `chunk_overlap = 4` on `"abc.xy"`: the window `[0:5]` has
its last `'.'` at offset 3 > 5 // 2, so the loop cuts at `end = 4` and the
next cursor is `4 - 4 = 0` again — the loop never advances, and the fueled
embedding returns `none` for every fuel. -/
theorem chunkLoop_stuck : ∀ (fuel : Nat) (acc : List (List Char)),
    chunkLoop 5 4 ("abc.xy".toList) fuel 0 acc = none
  | 0, _ => rfl
  | fuel + 1, acc =>
    chunkLoop_stuck fuel
      (acc ++ [pySlice ("abc.xy".toList) 0 (windowEnd 5 ("abc.xy".toList) 0)])

/-- C9: the claim that general chunking terminates for every configuration
with `chunk_overlap < chunk_size` fails on the code.  At
`chunk_size = 5`, `chunk_overlap = 4` (a valid configuration) and input
`"abc.xy"`, the cursor does not advance (`chunkNextStart … 0 = 0` while the
cursor is still short of the text end), and the fueled loop yields no result. -/
theorem generalChunking_nonterminating :
    chunkGeneralText 5 4 ("abc.xy".toList) = none
      ∧ chunkNextStart 5 4 ("abc.xy".toList) 0 = 0
      ∧ (0 : Int) < (("abc.xy".toList).length : Int)
      ∧ 4 < 5 := by
  refine ⟨?_, by decide, by decide, by decide⟩
  unfold chunkGeneralText
  rw [if_neg (by decide), chunkLoop_stuck]
  rfl

/-- C4: the sentence-boundary rule is not applied window-relative.  On the
21-character text below with `chunk_size = 10`, the second window starts at
8 and contains its last `'.'` at window-relative offset 7 — beyond the
midpoint 5 — yet the code cuts at the hard boundary 18 because it compares
the window-relative offset 7 against the absolute `start + chunk_size // 2
= 13`; the spec's window-relative rule would cut at 16.  The full run (with
`chunk_overlap = 2`) shows the emitted middle chunk is the hard-boundary
window `"ijuvwxy.zw"`, cut mid-sentence. -/
theorem windowEnd_divergence :
    windowEnd 10 ("abcdefghijuvwxy.zwklm".toList) 8 = 18
      ∧ windowEndSpec 10 ("abcdefghijuvwxy.zwklm".toList) 8 = 16
      ∧ windowEnd 10 ("abcdefghijuvwxy.zwklm".toList) 8
          ≠ windowEndSpec 10 ("abcdefghijuvwxy.zwklm".toList) 8
      ∧ chunkGeneralRaw 10 2 ("abcdefghijuvwxy.zwklm".toList)
          = some ["abcdefghij".toList, "ijuvwxy.zw".toList, "zwklm".toList] := by
  refine ⟨by decide, by decide, by decide, ?_⟩
  unfold chunkGeneralRaw
  rw [if_neg (by decide)]
  decide

/-- C1: concatenating the chunk list *as returned* by `_chunk_general_text`
with the overlap removed does not reconstruct the text, because the final
list comprehension strips each chunk.  At `chunk_size = 4`,
`chunk_overlap = 1` on `"abc de fg"` the returned chunks are
`["abc", "de", "fg"]` and gluing them gives `"abceg"`. -/
theorem chunkGeneralText_no_reconstruction :
    chunkGeneralText 4 1 ("abc de fg".toList)
        = some ["abc".toList, "de".toList, "fg".toList]
      ∧ glueOverlap 1 ["abc".toList, "de".toList, "fg".toList]
          ≠ "abc de fg".toList
      ∧ 1 < 4 := by
  refine ⟨?_, by decide, by decide⟩
  unfold chunkGeneralText
  rw [if_neg (by decide)]
  decide

/-- C8: a whitespace-only text of length ≤ `chunk_size` is returned verbatim
by the early return of `_chunk_general_text`, so the output contains a
whitespace-only, untrimmed fragment. -/
theorem chunkGeneralText_emits_whitespace :
    chunkGeneralText 4 1 (" ".toList) = some [" ".toList]
      ∧ stripChars (" ".toList) = ([] : List Char) := by
  constructor
  · rfl
  · decide

/-! ### Multi-database merge (C2) -/

theorem filter_orderedInsert (d : Rat) (x : QHit) (l : List QHit) :
    (List.orderedInsert hitLe x l).filter (fun h => decide (hitKey h = d))
      = if hitKey x = d
        then x :: l.filter (fun h => decide (hitKey h = d))
        else l.filter (fun h => decide (hitKey h = d)) := by
  induction l with
  | nil =>
    by_cases hx : hitKey x = d <;>
      simp [List.orderedInsert, List.filter, hx]
  | cons b l ih =>
    rw [List.orderedInsert]
    by_cases hxb : hitLe x b
    · rw [if_pos hxb]
      by_cases hx : hitKey x = d
      · rw [if_pos hx]
        simp [List.filter_cons, hx]
      · rw [if_neg hx]
        simp [List.filter_cons, hx]
    · rw [if_neg hxb]
      have hblt : hitKey b < hitKey x := lt_of_not_le hxb
      rw [List.filter_cons, List.filter_cons]
      by_cases hx : hitKey x = d
      · rw [if_pos hx]
        have hbd : ¬ hitKey b = d := by
          rw [← hx]
          exact ne_of_lt hblt
        rw [if_neg (by simpa using hbd), if_neg (by simpa using hbd), ih, if_pos hx]
      · rw [if_neg hx, ih, if_neg hx]

/-- Stability of the re-ranking sort: for every distance value, the hits at
that distance keep their original relative order. -/
theorem sortByDistance_stable (d : Rat) (l : List QHit) :
    (sortByDistance l).filter (fun h => decide (hitKey h = d))
      = l.filter (fun h => decide (hitKey h = d)) := by
  unfold sortByDistance
  induction l with
  | nil => rfl
  | cons x l ih =>
    rw [List.insertionSort, filter_orderedInsert, List.filter_cons]
    by_cases hx : hitKey x = d
    · rw [if_pos hx, ih, if_pos (by simpa using hx)]
    · rw [if_neg hx, ih, if_neg (by simpa using hx)]

/-- C2: `query_multiple_databases` merges the per-database hit lists into a
single list that is sorted by non-decreasing distance, is a stable
rearrangement of the concatenated input (ties keep the original
per-database order), and is truncated to `max_chunks_per_query`.  Hits are
assumed to carry numeric distances (a `None` distance would raise in the
Python comparison). -/
theorem mergeHits_ranked (maxChunks : Nat) (perDb : List (List QHit))
    (_hnum : ∀ h ∈ perDb.flatten, h.distance.isSome = true) :
    List.Pairwise hitLe (mergeHits maxChunks perDb)
      ∧ (mergeHits maxChunks perDb).length ≤ maxChunks
      ∧ (sortByDistance perDb.flatten).Perm perDb.flatten
      ∧ (∀ d : Rat,
          (sortByDistance perDb.flatten).filter (fun h => decide (hitKey h = d))
            = perDb.flatten.filter (fun h => decide (hitKey h = d)))
      ∧ mergeHits maxChunks perDb = (sortByDistance perDb.flatten).take maxChunks := by
  refine ⟨?_, ?_, List.perm_insertionSort hitLe _,
    fun d => sortByDistance_stable d _, rfl⟩
  · exact List.Pairwise.sublist (List.take_sublist _ _)
      (List.sorted_insertionSort hitLe _)
  · exact List.length_take_le _ _

/-- Witness for `mergeHits_ranked`: two databases, a distance tie between
the second hit of the first database and the hit of the second database;
the merged list keeps them in request order and drops the worst hit. -/
theorem mergeHits_ranked_witness :
    mergeHits 2 [hitsDb1, hitsDb2]
        = [⟨"y".toList, some 1, "db1"⟩, ⟨"z".toList, some 1, "db2"⟩]
      ∧ List.Pairwise hitLe (mergeHits 2 [hitsDb1, hitsDb2])
      ∧ (mergeHits 2 [hitsDb1, hitsDb2]).length ≤ 2 := by
  have h := mergeHits_ranked 2 [hitsDb1, hitsDb2] (by decide)
  exact ⟨by decide, h.1, h.2.1⟩

/-! ### Chunk id determinism (C6) -/

/-- C6: chunk id generation is deterministic.  The id list of a processed
file depends only on the file name and the chunk indices — in particular two
ingestions of the same chunk list at different wall-clock times (different
`processed_at` metadata) yield identical ids in the same order, and each id
is the hash of `f"{file_name}_{index}"` alone. -/
theorem documentIds_deterministic (md5hex : String → String) (fileName : String)
    (chunks : List (List Char)) (now1 now2 : String) :
    (buildDocuments md5hex fileName chunks now1).map DocRecord.id
        = (buildDocuments md5hex fileName chunks now2).map DocRecord.id
      ∧ ∀ d ∈ buildDocuments md5hex fileName chunks now1,
          d.id = md5hex (fileName ++ "_" ++ toString d.chunkIndex) := by
  constructor
  · simp only [buildDocuments, List.map_map]
    rfl
  · intro d hd
    simp only [buildDocuments, List.mem_map] at hd
    obtain ⟨p, _, rfl⟩ := hd
    rfl

/-! ### Confidence heuristic (C7) -/

/-- C7 counterexample: when a multi-database query finds no hits, the code
returns confidence `0.0`, not `min(0 × 0.15 + database_count × 0.1, 1.0)`:
with 2 databases and 0 hits the claimed formula gives `0.2`. -/
theorem multiConfidence_formula_cex :
    multiConfidence 0 2 5 = 0
      ∧ min (((min 0 5 : Nat) : Rat) * (3 / 20) + (2 : Rat) * (1 / 10)) 1 = 1 / 5
      ∧ (0 : Rat) ≠ 1 / 5 := by
  refine ⟨rfl, by norm_num, by norm_num⟩

theorem singleConfidence_nonneg (h : Nat) : 0 ≤ singleConfidence h := by
  unfold singleConfidence
  have : (0 : Rat) ≤ (h : Rat) * (1 / 5) := by positivity
  exact le_min this (by norm_num)

theorem multiConfidence_nonneg (a d m : Nat) : 0 ≤ multiConfidence a d m := by
  unfold multiConfidence
  split_ifs
  · exact le_refl 0
  · have : (0 : Rat) ≤ ((min a m : Nat) : Rat) * (3 / 20) + (d : Rat) * (1 / 10) := by
      positivity
    exact le_min this (by norm_num)

/-- C7 (amended): the confidence value is always in `[0, 1]` and is
non-decreasing in the hit count and in the queried-database count;
single-database confidence equals `min(hit_count × 0.2, 1.0)` for every hit
count, and multi-database confidence equals
`min(top_count × 0.15 + database_count × 0.1, 1.0)` (with `top_count` the
hit count after truncation to `max_chunks_per_query`) whenever at least one
hit was found — but it is `0.0`, not the formula value, when no hits were
found. -/
theorem confidence_monotone_bounded :
    (∀ h : Nat, singleConfidence h = min ((h : Rat) * (1 / 5)) 1)
      ∧ (∀ h : Nat, 0 ≤ singleConfidence h ∧ singleConfidence h ≤ 1)
      ∧ (∀ h h' : Nat, h ≤ h' → singleConfidence h ≤ singleConfidence h')
      ∧ (∀ a d m : Nat, 0 ≤ multiConfidence a d m ∧ multiConfidence a d m ≤ 1)
      ∧ (∀ a a' d m : Nat, a ≤ a' →
          multiConfidence a d m ≤ multiConfidence a' d m)
      ∧ (∀ a d d' m : Nat, d ≤ d' →
          multiConfidence a d m ≤ multiConfidence a d' m)
      ∧ (∀ a d m : Nat, a ≠ 0 → multiConfidence a d m
          = min (((min a m : Nat) : Rat) * (3 / 20) + (d : Rat) * (1 / 10)) 1)
      ∧ (∀ d m : Nat, multiConfidence 0 d m = 0) := by
  have hone : ∀ h : Nat, singleConfidence h ≤ 1 := fun h => min_le_right _ _
  have hmone : ∀ a d m : Nat, multiConfidence a d m ≤ 1 := by
    intro a d m
    unfold multiConfidence
    split_ifs
    · norm_num
    · exact min_le_right _ _
  refine ⟨fun h => rfl, fun h => ⟨singleConfidence_nonneg h, hone h⟩, ?_,
    fun a d m => ⟨multiConfidence_nonneg a d m, hmone a d m⟩, ?_, ?_, ?_, ?_⟩
  · intro h h' hle
    unfold singleConfidence
    refine min_le_min ?_ (le_refl 1)
    have : (h : Rat) ≤ (h' : Rat) := by exact_mod_cast hle
    nlinarith
  · intro a a' d m hle
    by_cases ha : a = 0
    · subst ha
      rw [show multiConfidence 0 d m = 0 from rfl]
      exact multiConfidence_nonneg a' d m
    · have ha' : a' ≠ 0 := by omega
      unfold multiConfidence
      rw [if_neg ha, if_neg ha']
      refine min_le_min (add_le_add_right ?_ _) (le_refl 1)
      have hmin : ((min a m : Nat) : Rat) ≤ ((min a' m : Nat) : Rat) := by
        exact_mod_cast (by omega : min a m ≤ min a' m)
      nlinarith
  · intro a d d' m hle
    by_cases ha : a = 0
    · subst ha
      exact le_refl _
    · unfold multiConfidence
      rw [if_neg ha, if_neg ha]
      refine min_le_min (add_le_add_left ?_ _) (le_refl 1)
      have : (d : Rat) ≤ (d' : Rat) := by exact_mod_cast hle
      nlinarith
  · intro a d m ha
    unfold multiConfidence
    rw [if_neg ha]
  · intro d m
    rfl

/-- Witness for `confidence_monotone_bounded` at concrete hit and database
counts. -/
theorem confidence_monotone_bounded_witness :
    singleConfidence 2 ≤ singleConfidence 3
      ∧ multiConfidence 1 1 5 ≤ multiConfidence 2 1 5
      ∧ multiConfidence 2 1 5 ≤ multiConfidence 2 4 5
      ∧ multiConfidence 2 1 5
          = min (((min 2 5 : Nat) : Rat) * (3 / 20) + (1 : Rat) * (1 / 10)) 1 := by
  refine ⟨confidence_monotone_bounded.2.2.1 2 3 (by norm_num),
    confidence_monotone_bounded.2.2.2.2.1 1 2 1 5 (by norm_num),
    confidence_monotone_bounded.2.2.2.2.2.1 2 1 4 5 (by norm_num),
    ?_⟩
  have h := confidence_monotone_bounded.2.2.2.2.2.2.1 2 1 5 (by norm_num)
  simpa using h

/-! ### Per-database query error handling (C5) -/

theorem mem_dictSet_self {α : Type} (m : List (String × α)) (k : String) (v : α) :
    (k, v) ∈ dictSet m k v := by
  unfold dictSet
  by_cases hany : m.any (fun p => p.1 == k) = true
  · rw [if_pos hany]
    obtain ⟨p, hp, hpk⟩ := List.any_eq_true.mp hany
    exact List.mem_map.mpr ⟨p, hp, by rw [if_pos hpk]⟩
  · rw [if_neg hany]
    exact List.mem_append.mpr (Or.inr (by simp))

theorem mem_dictSet_of_ne {α : Type} (m : List (String × α)) (k n : String)
    (v w : α) (hne : n ≠ k) : (n, w) ∈ dictSet m k v ↔ (n, w) ∈ m := by
  unfold dictSet
  by_cases hany : m.any (fun p => p.1 == k) = true
  · rw [if_pos hany]
    constructor
    · intro hw
      obtain ⟨p, hp, hfp⟩ := List.mem_map.mp hw
      by_cases hpk : p.1 == k
      · rw [if_pos hpk] at hfp
        injection hfp with h1 h2
        exact absurd h1.symm hne
      · rw [if_neg hpk] at hfp
        exact hfp ▸ hp
    · intro hw
      refine List.mem_map.mpr ⟨(n, w), hw, ?_⟩
      rw [if_neg (by simpa using hne)]
  · rw [if_neg hany]
    constructor
    · intro hw
      rcases List.mem_append.mp hw with h | h
      · exact h
      · have h2 := List.mem_singleton.mp h
        injection h2 with h1 _
        exact absurd h1 hne
    · intro hw
      exact List.mem_append.mpr (Or.inl hw)

theorem exists_mem_dictSet {α : Type} (m : List (String × α)) (k n : String)
    (v : α) :
    (∃ w, (n, w) ∈ dictSet m k v) ↔ (n = k ∨ ∃ w, (n, w) ∈ m) := by
  by_cases hnk : n = k
  · subst hnk
    exact ⟨fun _ => Or.inl rfl, fun _ => ⟨v, mem_dictSet_self m n v⟩⟩
  · constructor
    · rintro ⟨w, hw⟩
      exact Or.inr ⟨w, (mem_dictSet_of_ne m k n v w hnk).mp hw⟩
    · rintro (h | ⟨w, hw⟩)
      · exact absurd h hnk
      · exact ⟨w, (mem_dictSet_of_ne m k n v w hnk).mpr hw⟩

theorem exists_mem_queryStep (env : String → DbOutcome)
    (acc : List (String × List QHit)) (name n : String) :
    (∃ w, (n, w) ∈ queryStep env acc name)
      ↔ ((∃ w, (n, w) ∈ acc) ∨ (n = name ∧ env name ≠ DbOutcome.openFail)) := by
  unfold queryStep
  cases henv : env name with
  | openFail => simp
  | queryFail =>
    rw [exists_mem_dictSet]
    simp [or_comm]
  | ok hits =>
    rw [exists_mem_dictSet]
    simp [or_comm]

theorem mem_queryStep_preserve (env : String → DbOutcome)
    (acc : List (String × List QHit)) (name n : String)
    (hq : env n = DbOutcome.queryFail)
    (h : (n, ([] : List QHit)) ∈ acc) :
    (n, ([] : List QHit)) ∈ queryStep env acc name := by
  unfold queryStep
  cases henv : env name with
  | openFail => exact h
  | queryFail =>
    by_cases hnk : n = name
    · subst hnk
      exact mem_dictSet_self acc n []
    · exact (mem_dictSet_of_ne acc name n _ _ hnk).mpr h
  | ok hits =>
    by_cases hnk : n = name
    · subst hnk
      rw [henv] at hq
      exact absurd hq (by simp)
    · exact (mem_dictSet_of_ne acc name n _ _ hnk).mpr h

theorem queryFold_spec (env : String → DbOutcome) :
    ∀ (names : List String) (acc : List (String × List QHit)) (n : String),
      ((∃ w, (n, w) ∈ names.foldl (queryStep env) acc)
          ↔ ((∃ w, (n, w) ∈ acc) ∨ (n ∈ names ∧ env n ≠ DbOutcome.openFail)))
        ∧ (env n = DbOutcome.queryFail →
            ((n, ([] : List QHit)) ∈ acc ∨ n ∈ names) →
            (n, ([] : List QHit)) ∈ names.foldl (queryStep env) acc) := by
  intro names
  induction names with
  | nil =>
    intro acc n
    constructor
    · simp
    · intro _ hmem
      rcases hmem with h | h
      · simpa using h
      · exact absurd h (List.not_mem_nil n)
  | cons name rest ih =>
    intro acc n
    rw [List.foldl_cons]
    constructor
    · rw [(ih (queryStep env acc name) n).1, exists_mem_queryStep env acc name n]
      constructor
      · rintro ((h | ⟨rfl, henv⟩) | ⟨hr, henv⟩)
        · exact Or.inl h
        · exact Or.inr ⟨List.mem_cons_self _ _, henv⟩
        · exact Or.inr ⟨List.mem_cons_of_mem _ hr, henv⟩
      · rintro (h | ⟨hmem, henv⟩)
        · exact Or.inl (Or.inl h)
        · rcases List.mem_cons.mp hmem with rfl | hr
          · exact Or.inl (Or.inr ⟨rfl, henv⟩)
          · exact Or.inr ⟨hr, henv⟩
    · intro hq hmem
      apply (ih (queryStep env acc name) n).2 hq
      rcases hmem with hacc | hcons
      · exact Or.inl (mem_queryStep_preserve env acc name n hq hacc)
      · rcases List.mem_cons.mp hcons with rfl | hr
        · refine Or.inl ?_
          unfold queryStep
          rw [hq]
          exact mem_dictSet_self acc n []
        · exact Or.inr hr

/-- C5 counterexample: a database that fails to open is *omitted* from the
returned mapping — no empty result list is recorded, so the requested name
does not appear as a key. -/
theorem queryDatabases_omits_failed_db :
    queryDatabases envOpenFail ["dbA"] = []
      ∧ "dbA" ∉ (queryDatabases envOpenFail ["dbA"]).map Prod.fst := by
  have h : queryDatabases envOpenFail ["dbA"] = [] := rfl
  refine ⟨h, ?_⟩
  rw [h]
  simp

/-- C5 (amended): a database that fails to open is skipped without aborting
the remaining databases, but it is omitted from the returned mapping rather
than recorded with an empty list; a name appears as a key iff it was
requested and opened, and a database whose *query* raises is the one that
is recorded with an empty result list. -/
theorem queryDatabases_skip_behavior (env : String → DbOutcome)
    (names : List String) (n : String) :
    ((∃ w, (n, w) ∈ queryDatabases env names)
        ↔ (n ∈ names ∧ env n ≠ DbOutcome.openFail))
      ∧ (env n = DbOutcome.queryFail → n ∈ names →
          (n, ([] : List QHit)) ∈ queryDatabases env names) := by
  unfold queryDatabases
  constructor
  · rw [(queryFold_spec env names [] n).1]
    simp
  · intro h1 h2
    exact (queryFold_spec env names [] n).2 h1 (Or.inr h2)

/-- Witness for `queryDatabases_skip_behavior`: in `envMixed`, `dbA` fails
to open and is omitted while `dbB`'s failed query is recorded empty. -/
theorem queryDatabases_skip_behavior_witness :
    (("dbB", ([] : List QHit)) ∈ queryDatabases envMixed ["dbA", "dbB"])
      ∧ ¬ ("dbA" ∈ ["dbA", "dbB"] ∧ envMixed "dbA" ≠ DbOutcome.openFail) := by
  constructor
  · exact (queryDatabases_skip_behavior envMixed ["dbA", "dbB"] "dbB").2
      (by rfl) (by simp)
  · rintro ⟨_, henv⟩
    exact henv rfl

/-! ### `delete_database` (C3, C10) -/

/-- C3 counterexample: deleting an existing on-disk database emits the
directory removal *before* the `DELETE_DATABASE` audit append. -/
theorem deleteDatabase_audit_order_cex :
    (deleteDatabase [] ["db1"] "db1").events
      = [Event.removeDir "db1", Event.auditAppend "DELETE_DATABASE" "db1"] := by
  rfl

/-- C3 (amended): in every execution of `delete_database` the
`DELETE_DATABASE` audit record is appended *after* the removal steps: the
trace is some removal events followed by the single audit append (so the
container is removed while the audit record is still unwritten, not the
other way around). -/
theorem deleteDatabase_audit_last (active disk : List String) (name : String) :
    ∃ pre,
      (deleteDatabase active disk name).events
          = pre ++ [Event.auditAppend "DELETE_DATABASE" name]
        ∧ (name ∈ disk → Event.removeDir name ∈ pre)
        ∧ ∀ e ∈ pre, e ≠ Event.auditAppend "DELETE_DATABASE" name := by
  refine ⟨(if name ∈ active then [Event.removeActive name] else [])
      ++ (if name ∈ disk then [Event.removeDir name] else []), ?_, ?_, ?_⟩
  · simp [deleteDatabase]
  · intro h
    rw [if_pos h]
    exact List.mem_append.mpr (Or.inr (by simp))
  · intro e he
    rcases List.mem_append.mp he with h | h
    · revert h
      split_ifs with hm
      · intro h
        rw [List.mem_singleton.mp h]
        simp
      · intro h
        exact absurd h (List.not_mem_nil e)
    · revert h
      split_ifs with hm
      · intro h
        rw [List.mem_singleton.mp h]
        simp
      · intro h
        exact absurd h (List.not_mem_nil e)

/-- Witness for `deleteDatabase_audit_last` on a database present on disk. -/
theorem deleteDatabase_audit_last_witness :
    Event.removeDir "db2" ∈ (deleteDatabase [] ["db2"] "db2").events
      ∧ (deleteDatabase [] ["db2"] "db2").events.getLast?
          = some (Event.auditAppend "DELETE_DATABASE" "db2") := by
  obtain ⟨pre, h1, h2, _⟩ := deleteDatabase_audit_last [] ["db2"] "db2"
  constructor
  · rw [h1]
    exact List.mem_append.mpr (Or.inl (h2 (by simp)))
  · rw [h1, List.getLast?_append_of_ne_nil _ (by simp)]
    rfl

/-- C10: `delete_database` on a name that exists neither on disk nor in the
open-database cache still appends a `DELETE_DATABASE` audit record and
returns `True`; no error is reported for the unknown name. -/
theorem deleteDatabase_unknown_name_succeeds (active disk : List String)
    (name : String) (ha : name ∉ active) (hd : name ∉ disk) :
    (deleteDatabase active disk name).ok = true
      ∧ (deleteDatabase active disk name).events
          = [Event.auditAppend "DELETE_DATABASE" name] := by
  constructor
  · rfl
  · simp [deleteDatabase, ha, hd]

/-- Witness for `deleteDatabase_unknown_name_succeeds`. -/
theorem deleteDatabase_unknown_name_succeeds_witness :
    (deleteDatabase ["other"] [] "ghost").ok = true
      ∧ (deleteDatabase ["other"] [] "ghost").events
          = [Event.auditAppend "DELETE_DATABASE" "ghost"] :=
  deleteDatabase_unknown_name_succeeds ["other"] [] "ghost"
    (by simp) (by simp)

end LocalRAG
